import Mathlib

/-!
Verification of the hybrid RAG retrieval engine (`rag_chain.py`, `ingest.py`).

The Python source is shallowly embedded: pure string processing
(`expand_query`, `extract_keywords`) is translated to executable Lean
functions on `String`/`List Char`; the SQL retrieval query of
`search_similar_documents` is translated to list processing over a store of
rows carrying a precomputed base similarity (the embedding distance is
abstracted into a rational number per row, since only the score fusion and
ordering are under verification); the fallible embedding call of
`embed_texts` is modelled with `Except` and an oracle giving the outcome of
each remote attempt.  Floating-point scores are modelled by `ℚ`.
-/

/-! ## Generic list/string helpers -/

/-- Membership of `needle` as a contiguous sublist of `hay`
(Python's `in` on strings, SQL `LIKE` with wildcards on both sides). -/
def listInfixOf (needle : List Char) : List Char → Bool
  | [] => needle.isEmpty
  | c :: t => needle.isPrefixOf (c :: t) || listInfixOf needle t

/-- `needle` occurs as a substring of `hay` (Python `needle in hay`). -/
def substrB (needle hay : String) : Bool :=
  listInfixOf needle.data hay.data

/-- `t` ends with `sfx` (Python `str.endswith`). -/
def endsWithL (t sfx : List Char) : Bool :=
  sfx.reverse.isPrefixOf t.reverse

/-- Whitespace-splitting of a character list into maximal non-blank words,
`cur` being the (reversed-free) word accumulated so far.  Models Python's
`str.split()` with no argument. -/
def splitWordsAux : List Char → List Char → List (List Char)
  | [], cur => if cur = [] then [] else [cur]
  | c :: cs, cur =>
    if c.isWhitespace then
      if cur = [] then splitWordsAux cs []
      else cur :: splitWordsAux cs []
    else splitWordsAux cs (cur ++ [c])

/-- Words of a string, as strings. -/
def wordsOf (s : String) : List String :=
  (splitWordsAux s.data []).map (fun l => (⟨l⟩ : String))

/-- First-occurrence deduplication, `seen` holding the values already kept.
Models Python's `list(dict.fromkeys(keywords))`. -/
def dedupAux (seen : List String) : List String → List String
  | [] => []
  | x :: xs => if x ∈ seen then dedupAux seen xs else x :: dedupAux (x :: seen) xs

/-- First-occurrence deduplication of a list of strings. -/
def dedupFirst (l : List String) : List String := dedupAux [] l

/-- Join a list of strings with single spaces (`" ".join(...)`). -/
def joinSp : List String → String
  | [] => ""
  | [x] => x
  | x :: y :: xs => x ++ " " ++ joinSp (y :: xs)

/-- Join a list of strings with a separator (`sep.join(...)`). -/
def joinWith (sep : String) : List String → String
  | [] => ""
  | [x] => x
  | x :: y :: xs => x ++ sep ++ joinWith sep (y :: xs)

/-! ## Query expansion (`rag_chain.KR_EN_MAP`, `rag_chain.expand_query`) -/

/-- The bilingual synonym dictionary `KR_EN_MAP` of `rag_chain.py`, in
its (insertion-ordered) iteration order. -/
def KR_EN_MAP : List (String × String) := [
  ("태재대학교", "Taejae TAEJAE taejae.ac.kr"),
  ("태재", "Taejae TAEJAE taejae"),
  ("비전", "vision visions"), ("목표", "goal goals objective"), ("교육", "education educational"),
  ("철학", "philosophy"), ("인재", "talent leader"), ("핵심역량", "core competency"),
  ("학생", "student students"), ("캠퍼스", "campus"), ("글로벌", "global"),
  ("혁신", "innovation"), ("미래", "future"), ("학습", "learning study"),
  ("리더", "leader leadership"), ("연구", "research"), ("개발", "development"),
  ("기술", "technology"), ("과학", "science"), ("공학", "engineering"),
  ("경영", "management business"), ("경제", "economics economy"),
  ("사회", "society social"), ("문화", "culture cultural"),
  ("정책", "policy"), ("전략", "strategy strategic"), ("계획", "plan planning"),
  ("평가", "evaluation assessment"), ("분석", "analysis"),
  ("설계", "design"), ("구현", "implementation"), ("운영", "operation management"),
  ("관리", "management administration"), ("시스템", "system"),
  ("프로그램", "program"), ("프로젝트", "project"),
  ("데이터", "data"), ("정보", "information"), ("보안", "security"),
  ("네트워크", "network"), ("서버", "server"), ("클라우드", "cloud"),
  ("인공지능", "artificial intelligence AI"), ("머신러닝", "machine learning"),
  ("딥러닝", "deep learning"), ("알고리즘", "algorithm"),
  ("소프트웨어", "software"), ("하드웨어", "hardware"),
  ("입학", "admission enrollment"), ("졸업", "graduation"),
  ("장학금", "scholarship"), ("등록금", "tuition fee"),
  ("수업", "class course lecture"), ("시험", "exam examination"),
  ("성적", "grade score"), ("학점", "credit"),
  ("교수", "professor faculty"), ("직원", "staff employee"),
  ("규정", "regulation rule"), ("규칙", "rule"),
  ("지침", "guideline"), ("정관", "articles charter"),
  ("예산", "budget"), ("회계", "accounting finance"),
  ("계약", "contract agreement"), ("구매", "procurement purchase"),
  ("출장", "business trip travel"), ("여비", "travel expenses"),
  ("인사", "personnel HR"), ("복무", "service duty"),
  ("급여", "salary pay"), ("보수", "compensation remuneration"),
  ("채용", "recruitment hiring"), ("퇴직", "retirement resignation"),
  ("징계", "discipline disciplinary"), ("상벌", "reward punishment"),
  ("안전", "safety"), ("환경", "environment"),
  ("시설", "facility facilities"), ("건물", "building"),
  ("도서관", "library"), ("기숙사", "dormitory"),
  ("위원회", "committee commission"), ("회의", "meeting conference"),
  ("보고서", "report"), ("문서", "document"),
  ("승인", "approval"), ("허가", "permission permit"),
  ("감사", "audit inspection"), ("점검", "inspection check"),
  ("협력", "cooperation collaboration"), ("파트너", "partner partnership"),
  ("산학", "industry-academia"), ("산학협력", "industry-academia cooperation"),
  ("특허", "patent"), ("저작권", "copyright"),
  ("논문", "thesis paper"), ("학위", "degree"),
  ("커리큘럼", "curriculum"), ("교과", "curriculum course"),
  ("성과", "performance result"), ("목적", "purpose objective"),
  ("조직", "organization"), ("부서", "department division")]

/-- `rag_chain.expand_query`: start from the query and, for every
dictionary entry whose key occurs in the query, append a space and the
entry's synonym string. -/
def expand_query (query : String) : String :=
  KR_EN_MAP.foldl
    (fun expanded p => if substrB p.1 query then expanded ++ " " ++ p.2 else expanded)
    query

/-- Concatenation of a list of strings. -/
def concatAll : List String → String
  | [] => ""
  | x :: xs => x ++ concatAll xs

/-- The appended synonym tail of `expand_query`: the synonym strings of
the matching dictionary keys, in dictionary order, each preceded by a
space. -/
def matchTail (q : String) : String :=
  concatAll ((KR_EN_MAP.filter (fun p => substrB p.1 q)).map (fun p => " " ++ p.2))

/-! ## Keyword extraction (`rag_chain.extract_keywords`) -/

/-- The stopword set of `extract_keywords` (a Python `set`; membership is
all that is ever used of it). -/
def stopWords : List String := [
  "은", "는", "이", "가", "을", "를", "의", "에", "에서", "으로", "로",
  "와", "과", "도", "만", "까지", "부터", "에게", "한테", "께",
  "있다", "없다", "하다", "되다", "이다", "아니다",
  "그", "이", "저", "것", "수", "등", "및", "또는", "그리고",
  "무엇", "어떤", "어떻게", "왜", "언제", "어디",
  "좀", "더", "매우", "가장", "정말", "아주",
  "대해", "대한", "관한", "관해", "대하여", "관하여",
  "알려", "알려줘", "설명", "뭐", "뭔가", "인가", "인지"]

/-- The grammatical suffix list of `extract_keywords`, in source order. -/
def suffixList : List String :=
  ["은", "는", "이", "가", "을", "를", "의", "에서", "에게", "으로", "에", "로",
   "와", "과", "도", "만", "요", "까"]

/-- `sorted(suffixes, key=len, reverse=True)`: the suffix list sorted by
length, longest first (stably, which is immaterial here since among
equal-length suffixes at most one can match a given ending). -/
def sortedSuffixes : List String :=
  List.insertionSort (fun a b => b.length ≤ a.length) suffixList

/-- The punctuation characters removed by the `re.sub` character class
of `extract_keywords`. -/
def punctChars : List Char :=
  ['?', '!', '.', ',', ';', ':', '\'', '\"', '(', ')', '（', '）',
   '「', '」', '『', '』', '[', ']', '\x7b', '\x7d']

/-- `re.sub(r'[?!.,;:...]', ' ', query)`: replace each punctuation
character by a space. -/
def cleanChars (l : List Char) : List Char :=
  l.map (fun c => if c ∈ punctChars then ' ' else c)

/-- `cleaned.split()`: the whitespace-separated tokens of the cleaned
query. -/
def tokensOf (query : String) : List String :=
  (splitWordsAux (cleanChars query.data) []).map (fun l => (⟨l⟩ : String))

/-- Suffix-strip eligibility: `len(stripped) > len(suffix) + 1 and
stripped.endswith(suffix)`. -/
def elig (t : List Char) (sfx : String) : Prop :=
  sfx.data.length + 1 < t.length ∧ endsWithL t sfx.data = true

instance (t : List Char) (sfx : String) : Decidable (elig t sfx) := by
  unfold elig; infer_instance

/-- The suffix-stripping loop: try each suffix in order, strip the first
eligible one and stop (the `for`/`break` of `extract_keywords`). -/
def stripLoop (t : List Char) : List String → List Char
  | [] => t
  | sfx :: rest =>
    if elig t sfx then t.take (t.length - sfx.data.length) else stripLoop t rest

/-- `base = stripped if len(stripped) >= 2 else token`. -/
def baseOf (t : String) : String :=
  let stripped := stripLoop t.data sortedSuffixes
  if 2 ≤ stripped.length then (⟨stripped⟩ : String) else t

/-- The English synonym tokens emitted for a base form:
`KR_EN_MAP[base].split()` filtered to length ≥ 2, when `base` is a key. -/
def synonymsOf (base : String) : List String :=
  match KR_EN_MAP.find? (fun p => p.1 == base) with
  | some p => (wordsOf p.2).filter (fun w => 2 ≤ w.length)
  | none => []

/-- The keywords contributed by one token of the cleaned query: nothing
for short tokens and stopwords, otherwise the base form, the original
token when it differs, and the synonym expansion of the base. -/
def emitToken (t : String) : List String :=
  if t.length < 2 ∨ t ∈ stopWords then []
  else baseOf t :: ((if baseOf t ≠ t then [t] else []) ++ synonymsOf (baseOf t))

/-- `rag_chain.extract_keywords`: accumulate the per-token emissions in
order, then deduplicate keeping first occurrences. -/
def extract_keywords (query : String) : List String :=
  dedupFirst ((tokensOf query).foldl (fun acc t => acc ++ emitToken t) [])

/-- The keyword list of `extract_keywords` before deduplication: the
per-token emissions of the cleaned query's tokens, concatenated in
order. -/
def emitAll (query : String) : List String :=
  ((tokensOf query).map emitToken).flatten

/-! ## Hybrid retrieval (`rag_chain.search_similar_documents`)

A stored row is modelled relative to one fixed query embedding: `sim` is
the row's base similarity `1 - (embedding <=> query_vector)`, the only
use the search query makes of the embedding. -/

/-- A row of the `documents` table, specialised to one query vector. -/
structure Row where
  content : String
  filename : String
  source : String
  sim : ℚ
deriving DecidableEq

/-- Lower-casing for `ILIKE`'s case-insensitivity. -/
def lowerStr (s : String) : String := ⟨s.data.map Char.toLower⟩

/-- `hay ILIKE '%pat%'`: case-insensitive substring containment. -/
def containsCI (hay pat : String) : Bool :=
  listInfixOf (lowerStr pat).data (lowerStr hay).data

/-- The per-keyword match predicate `content_or_meta`:
`content ILIKE '%kw%' OR metadata->>'filename' ILIKE '%kw%' OR
metadata->>'source' ILIKE '%kw%'`. -/
def rowMatches (kw : String) (r : Row) : Bool :=
  containsCI r.content kw || containsCI r.filename kw || containsCI r.source kw

/-- The SQL boost expression: one `CASE WHEN match THEN 0.03 ELSE 0 END`
summand per keyword, plus `CASE WHEN all match THEN 0.3 ELSE 0 END`. -/
def boost (kws : List String) (r : Row) : ℚ :=
  (kws.map (fun kw => if rowMatches kw r then (3 / 100 : ℚ) else 0)).sum
    + (if kws.all (fun kw => rowMatches kw r) then (3 / 10 : ℚ) else 0)

/-- `final_similarity = base_similarity + boost`. -/
def finalScore (kws : List String) (r : Row) : ℚ := r.sim + boost kws r

/-- The keyword-count ranking expression of the keyword pool. -/
def matchCount (kws : List String) (r : Row) : Nat :=
  kws.countP (fun kw => rowMatches kw r)

/-- `ORDER BY embedding <=> qv` (ascending distance = descending
similarity). -/
def sortBySimDesc (l : List Row) : List Row :=
  List.insertionSort (fun a b => b.sim ≤ a.sim) l

/-- `ORDER BY (match count) DESC` for the keyword pool. -/
def sortByCountDesc (kws : List String) (l : List Row) : List Row :=
  List.insertionSort (fun a b => matchCount kws b ≤ matchCount kws a) l

/-- `ORDER BY final_similarity DESC` for the fused result. -/
def sortByFinalDesc (kws : List String) (l : List Row) : List Row :=
  List.insertionSort (fun a b => finalScore kws b ≤ finalScore kws a) l

/-- `WHERE <any keyword matches>` of the keyword pool. -/
def matchesAny (kws : List String) (r : Row) : Bool :=
  kws.any (fun kw => rowMatches kw r)

/-- One step of `DISTINCT ON (content) ... ORDER BY content,
base_similarity DESC`: keep one row per content, the one with the larger
base similarity. -/
def insertRow (r : Row) : List Row → List Row
  | [] => [r]
  | x :: xs =>
    if x.content = r.content then (if x.sim < r.sim then r else x) :: xs
    else x :: insertRow r xs

/-- Content-deduplication of the unioned pools, keeping per content the
row with maximal base similarity. -/
def dedupByContent (l : List Row) : List Row :=
  l.foldl (fun acc r => insertRow r acc) []

/-- The retrieval query of `search_similar_documents`, for a store whose
rows carry their base similarity to the (expanded) query embedding: the
keyword-less branch is a pure vector search, the keyword branch unions a
semantic and a keyword pool (each capped at 50), deduplicates by content
and ranks by fused score; both branches return at most `k` rows. -/
def searchModel (store : List Row) (query : String) (k : Nat) : List Row :=
  let kws := extract_keywords query
  if kws = [] then (sortBySimDesc store).take k
  else
    let semantic := (sortBySimDesc store).take 50
    let keywordPool := (sortByCountDesc kws (store.filter (matchesAny kws))).take 50
    let combined := dedupByContent (semantic ++ keywordPool)
    (sortByFinalDesc kws combined).take k

/-- `search_similar_documents` including its `try/except`: a store-level
error during the retrieval query is swallowed and yields `[]`. -/
def searchWithStore (res : Except String (List Row)) (query : String) (k : Nat) :
    List Row :=
  match res with
  | .error _ => []
  | .ok rows => searchModel rows query k

/-! ## Embedding provider (`rag_chain.embed_texts`) -/

/-- An embedding vector (the 768 floats, modelled as rationals). -/
abbrev Vec := List ℚ

/-- The error raised by a failed remote embedding attempt. -/
abbrev EmbedErr := String

/-- The retry loop of `embed_texts` for one text, `a` the current attempt
number and the second argument the number of attempts left
(`max_retries - a`).  `f a` is the outcome of remote attempt `a`.  Returns
`none` when the loop body never ran (`max_retries = 0`: nothing appended,
nothing raised), otherwise the first success or the last failure; also
returns the list of back-off delays slept (`1.0 * (attempt + 1)` before
each retry). -/
def retryGo (f : Nat → Except EmbedErr Vec) : Nat → Nat → Option (Except EmbedErr Vec) × List ℚ
  | _, 0 => (none, [])
  | a, 1 =>
    match f a with
    | .ok v => (some (.ok v), [])
    | .error e => (some (.error e), [])
  | a, fuel + 2 =>
    match f a with
    | .ok v => (some (.ok v), [])
    | .error _ =>
      let r := retryGo f (a + 1) (fuel + 1)
      (r.1, ((a : ℚ) + 1) :: r.2)

/-- `rag_chain.embed_texts`: embed each text in order with per-text
retries; a raise propagates immediately, a success appends its vector. -/
def embed_texts (oracle : String → Nat → Except EmbedErr Vec)
    (texts : List String) (maxRetries : Nat) : Except EmbedErr (List Vec) :=
  match texts with
  | [] => .ok []
  | t :: ts =>
    match (retryGo (oracle t) 0 maxRetries).1 with
    | some (.error e) => .error e
    | some (.ok v) =>
      match embed_texts oracle ts maxRetries with
      | .ok vs => .ok (v :: vs)
      | .error e => .error e
    | none => embed_texts oracle ts maxRetries

/-! ## Context formatting (`rag_chain.format_docs`, `ingest.load_pdf`) -/

/-- The metadata keys `format_docs` and file ingestion use; an absent
Python dict key is `none`. -/
structure DocMeta where
  filename : Option String
  source : Option String
  docType : Option String
  page : Option Nat
  slide : Option Nat
  sheet : Option String
deriving DecidableEq

/-- A `langchain` `Document`: page content plus metadata. -/
structure Doc where
  page_content : String
  metadata : DocMeta
deriving DecidableEq

/-- The type-specific locator suffix of the source label: only the legacy
tags `pdf`, `pptx`, `xlsx` produce one. -/
def extraInfo (m : DocMeta) : String :=
  let dt := m.docType.getD "unknown"
  if dt = "pdf" then
    ", Page " ++ (match m.page with | some p => toString p | none => "N/A")
  else if dt = "pptx" then
    ", Slide " ++ (match m.slide with | some p => toString p | none => "N/A")
  else if dt = "xlsx" then
    ", Sheet: " ++ (m.sheet.getD "N/A")
  else ""

/-- `metadata.get("filename", metadata.get("source", "Unknown"))`. -/
def sourceLabel (m : DocMeta) : String :=
  m.filename.getD (m.source.getD "Unknown")

/-- `rag_chain.format_docs`: each document rendered as
`[Source i+1: label(extra)]\n content`, joined by a separator line. -/
def format_docs (docs : List Doc) : String :=
  joinWith "\n\n---\n\n"
    (docs.enum.map (fun p =>
      "[Source " ++ toString (p.1 + 1) ++ ": " ++ sourceLabel p.2.metadata
        ++ extraInfo p.2.metadata ++ "]\n" ++ p.2.page_content))

/-- `ingest.load_pdf`: one document per page with extractable text,
tagged `source`, 1-based `page`, and `type = "file"`; an error when no
page yields text.  The extracted page texts stand in for the external PDF
parser. -/
def load_pdf (file_path : String) (pageTexts : List String) :
    Except String (List Doc) :=
  let docs := ((pageTexts.enum).filter
      (fun p => p.2.data.any (fun c => !c.isWhitespace))).map
    (fun p => ⟨p.2, ⟨none, some file_path, some "file", some (p.1 + 1), none, none⟩⟩)
  if docs = [] then .error "PDF contains no extractable text" else .ok docs

/-! ## Helper lemmas -/

theorem listInfixOf_iff {a b : List Char} : listInfixOf a b = true ↔ a <:+: b := by
  induction b with
  | nil =>
    simp only [listInfixOf, List.isEmpty_iff, List.infix_nil]
  | cons c t ih =>
    simp only [listInfixOf, Bool.or_eq_true, List.isPrefixOf_iff_prefix, ih]
    constructor
    · rintro (h | h)
      · exact h.isInfix
      · exact h.trans (List.suffix_cons c t).isInfix
    · rintro ⟨s, u, h⟩
      cases s with
      | nil => exact Or.inl ⟨u, h⟩
      | cons x s =>
        right
        simp only [List.cons_append] at h
        injection h with h1 h2
        exact ⟨s, u, h2⟩

theorem substrB_iff {a b : String} : substrB a b = true ↔ a.data <:+: b.data :=
  listInfixOf_iff

theorem infix_ext_left {a b c : List Char} (h : a <:+: b) : a <:+: c ++ b := by
  obtain ⟨s, t, h⟩ := h
  exact ⟨c ++ s, t, by rw [← h]; simp [List.append_assoc]⟩

theorem infix_ext_right {a b c : List Char} (h : a <:+: b) : a <:+: b ++ c := by
  obtain ⟨s, t, h⟩ := h
  exact ⟨s, t ++ c, by rw [← h]; simp [List.append_assoc]⟩

theorem dedupAux_sublist (seen : List String) (l : List String) :
    (dedupAux seen l).Sublist l := by
  induction l generalizing seen with
  | nil => simp [dedupAux]
  | cons x xs ih =>
    simp only [dedupAux]
    split
    · exact (ih seen).trans (List.sublist_cons_self x xs)
    · exact (ih (x :: seen)).cons₂ x

theorem mem_dedupAux {seen l : List String} {x : String} :
    x ∈ dedupAux seen l ↔ x ∈ l ∧ x ∉ seen := by
  induction l generalizing seen with
  | nil => simp [dedupAux]
  | cons y ys ih =>
    simp only [dedupAux]
    split
    · rename_i hy
      rw [ih]
      simp only [List.mem_cons]
      constructor
      · rintro ⟨h1, h2⟩; exact ⟨Or.inr h1, h2⟩
      · rintro ⟨h1 | h1, h2⟩
        · exact absurd (h1 ▸ hy) h2
        · exact ⟨h1, h2⟩
    · rename_i hy
      simp only [List.mem_cons, ih, List.mem_cons]
      constructor
      · rintro (rfl | ⟨h1, h2⟩)
        · exact ⟨Or.inl rfl, hy⟩
        · exact ⟨Or.inr h1, fun hx => h2 (Or.inr hx)⟩
      · rintro ⟨h1 | h1, h2⟩
        · exact Or.inl h1
        · by_cases hxy : x = y
          · exact Or.inl hxy
          · exact Or.inr ⟨h1, fun hx => (by simp [hxy] at hx; exact h2 hx)⟩

theorem dedupAux_nodup (seen : List String) (l : List String) :
    (dedupAux seen l).Nodup := by
  induction l generalizing seen with
  | nil => simp [dedupAux]
  | cons x xs ih =>
    simp only [dedupAux]
    split
    · exact ih seen
    · refine List.nodup_cons.mpr ⟨fun hx => ?_, ih (x :: seen)⟩
      exact (mem_dedupAux.mp hx).2 (List.mem_cons_self x seen)

theorem dedupFirst_nodup (l : List String) : (dedupFirst l).Nodup :=
  dedupAux_nodup [] l

theorem dedupFirst_sublist (l : List String) : (dedupFirst l).Sublist l :=
  dedupAux_sublist [] l

theorem mem_dedupFirst {l : List String} {x : String} :
    x ∈ dedupFirst l ↔ x ∈ l := by
  rw [dedupFirst, mem_dedupAux]; simp

theorem foldl_append_eq_flatten {α : Type} (f : α → List String) :
    ∀ (l : List α) (acc : List String),
      l.foldl (fun a t => a ++ f t) acc = acc ++ (l.map f).flatten := by
  intro l
  induction l with
  | nil => simp
  | cons x xs ih => intro acc; simp [List.foldl_cons, ih, List.append_assoc]

/-! ## Query expansion: lemmas and claim C6 -/

theorem concatAll_data (l : List String) :
    (concatAll l).data = (l.map String.data).flatten := by
  induction l with
  | nil => rfl
  | cons x xs ih => simp [concatAll, String.data_append, ih]

theorem foldl_expand (q : String) (l : List (String × String)) :
    ∀ acc : String,
      l.foldl (fun e p => if substrB p.1 q then e ++ " " ++ p.2 else e) acc
        = acc ++ concatAll ((l.filter (fun p => substrB p.1 q)).map (fun p => " " ++ p.2)) := by
  induction l with
  | nil =>
    intro acc
    simp [concatAll, String.append_empty]
  | cons x xs ih =>
    intro acc
    simp only [List.foldl_cons, List.filter_cons]
    by_cases hx : substrB x.1 q = true
    · rw [if_pos hx, if_pos hx, ih, List.map_cons, concatAll]
      apply String.ext
      simp [String.data_append, List.append_assoc]
    · rw [if_neg hx, if_neg (by simpa using hx), ih]

theorem expand_query_eq (q : String) : expand_query q = q ++ matchTail q :=
  foldl_expand q KR_EN_MAP q

theorem matched_infix_concat (q : String) (l : List (String × String))
    (p : String × String) (hp : p ∈ l) (hm : substrB p.1 q = true) :
    p.2.data <:+:
      (concatAll ((l.filter (fun p => substrB p.1 q)).map (fun p => " " ++ p.2))).data := by
  induction l with
  | nil => cases hp
  | cons x xs ih =>
    rcases List.mem_cons.mp hp with rfl | hp2
    · rw [List.filter_cons, if_pos hm, List.map_cons]
      rw [concatAll, String.data_append, String.data_append]
      exact List.infix_append _ _ _
    · by_cases hx : substrB x.1 q = true
      · rw [List.filter_cons, if_pos hx, List.map_cons, concatAll, String.data_append]
        exact infix_ext_left (ih hp2)
      · rw [List.filter_cons, if_neg (by simpa using hx)]
        exact ih hp2

/-- C6: for every query, `expand_query` returns the query followed by the
synonym strings of every dictionary key occurring in the query, in
dictionary iteration order; hence the query is a prefix of the output,
every matching key's synonym string occurs in the output, and a query
matching no key is returned unchanged. -/
theorem C6_expand_query_spec (q : String) :
    expand_query q = q ++ matchTail q ∧
    q.data <+: (expand_query q).data ∧
    (∀ p ∈ KR_EN_MAP, substrB p.1 q = true → substrB p.2 (expand_query q) = true) ∧
    ((∀ p ∈ KR_EN_MAP, substrB p.1 q = false) → expand_query q = q) := by
  refine ⟨expand_query_eq q, ?_, ?_, ?_⟩
  · rw [expand_query_eq q, String.data_append]
    exact List.prefix_append _ _
  · intro p hp hm
    rw [expand_query_eq q, substrB_iff, String.data_append]
    exact infix_ext_left (matched_infix_concat q KR_EN_MAP p hp hm)
  · intro h
    rw [expand_query_eq q, matchTail, List.filter_eq_nil_iff.mpr
      (fun p hp => by simp [h p hp]), List.map_nil, concatAll, String.append_empty]

/-- Witness for C6 at the query `"태재"`: the key `"태재"` occurs in the
query, so its synonym string occurs in the expanded query. -/
theorem C6_expand_query_spec_witness :
    substrB "Taejae TAEJAE taejae" (expand_query "태재") = true :=
  (C6_expand_query_spec "태재").2.2.1 ("태재", "Taejae TAEJAE taejae")
    (by decide) (by decide)

/-! ## Keyword extraction: lemmas and claims C5, C10, C4, C7 -/

theorem extract_keywords_eq (q : String) :
    extract_keywords q = dedupFirst (emitAll q) := by
  rw [extract_keywords, emitAll, foldl_append_eq_flatten emitToken (tokensOf q) []]
  rfl

theorem sortedSuffixes_sorted :
    sortedSuffixes.Pairwise (fun a b => b.length ≤ a.length) := by decide

theorem stripLoop_spec (t : List Char) (ss : List String)
    (hs : ss.Pairwise (fun a b => b.length ≤ a.length)) :
    stripLoop t ss = t ∨
      ∃ sfx ∈ ss, elig t sfx ∧
        stripLoop t ss = t.take (t.length - sfx.data.length) ∧
        ∀ s2 ∈ ss, sfx.length < s2.length → ¬ elig t s2 := by
  induction ss with
  | nil => exact Or.inl rfl
  | cons s rest ih =>
    rw [List.pairwise_cons] at hs
    by_cases h : elig t s
    · refine Or.inr ⟨s, List.mem_cons_self s rest, h,
        by rw [stripLoop, if_pos h], ?_⟩
      intro s2 hs2 hlen
      rcases List.mem_cons.mp hs2 with rfl | hs2'
      · exact absurd hlen (lt_irrefl _)
      · exact absurd hlen (not_lt.mpr (hs.1 s2 hs2'))
    · rw [stripLoop, if_neg h]
      rcases ih hs.2 with h1 | ⟨sfx, hsfx, he, hres, hmax⟩
      · exact Or.inl h1
      · refine Or.inr ⟨sfx, List.mem_cons_of_mem s hsfx, he, hres, ?_⟩
        intro s2 hs2 hlen
        rcases List.mem_cons.mp hs2 with rfl | hs2'
        · exact h
        · exact hmax s2 hs2' hlen

theorem stripLoop_length (t : List Char) (ht : 2 ≤ t.length) :
    ∀ ss : List String, 2 ≤ (stripLoop t ss).length := by
  intro ss
  induction ss with
  | nil => exact ht
  | cons s rest ih =>
    rw [stripLoop]
    split
    · rename_i h
      rw [List.length_take]
      have h1 := h.1
      omega
    · exact ih

theorem emitToken_length {t kw : String} (hkw : kw ∈ emitToken t) :
    2 ≤ kw.length := by
  rw [emitToken] at hkw
  split at hkw
  · cases hkw
  · rename_i hcond
    push_neg at hcond
    have ht2 : 2 ≤ t.length := hcond.1
    rcases List.mem_cons.mp hkw with rfl | hkw2
    · rw [baseOf]
      split
      · rename_i h2
        exact h2
      · exact ht2
    · rcases List.mem_append.mp hkw2 with hkw3 | hkw3
      · split at hkw3
        · rw [List.mem_singleton] at hkw3
          exact hkw3 ▸ ht2
        · cases hkw3
      · rw [synonymsOf] at hkw3
        split at hkw3
        · exact of_decide_eq_true (List.mem_filter.mp hkw3).2
        · cases hkw3

/-- C10: every extracted keyword has length at least 2; moreover on any
token that reaches the stripping step (length ≥ 2) the stripped form
still has length ≥ 2, so the fallback to the original token in
`base = stripped if len(stripped) >= 2 else token` is never taken. -/
theorem C10_keyword_min_length (q : String) :
    (∀ kw ∈ extract_keywords q, 2 ≤ kw.length) ∧
    (∀ t : String, 2 ≤ t.length →
      2 ≤ (stripLoop t.data sortedSuffixes).length ∧
      baseOf t = (⟨stripLoop t.data sortedSuffixes⟩ : String)) := by
  constructor
  · intro kw hkw
    rw [extract_keywords_eq] at hkw
    have h2 := mem_dedupFirst.mp hkw
    rw [emitAll] at h2
    obtain ⟨l, hl, hkl⟩ := List.mem_flatten.mp h2
    obtain ⟨t, _, rfl⟩ := List.mem_map.mp hl
    exact emitToken_length hkl
  · intro t ht
    have h := stripLoop_length t.data ht sortedSuffixes
    exact ⟨h, by rw [baseOf, if_pos h]⟩

/-- Witness for C10 at the scenario query: the extracted keyword `"비전"`
has length ≥ 2. -/
theorem C10_keyword_min_length_witness : 2 ≤ ("비전" : String).length :=
  (C10_keyword_min_length "비전이 뭐야?").1 "비전" (by decide)

/-- C5: `extract_keywords` is the first-occurrence deduplication of the
ordered per-token emissions: its result is duplicate-free, a sublist of
(hence in first-occurrence order of) the emitted keywords, with the same
members; tokens shorter than 2 characters or in the stopword set emit
nothing; and the suffix strip removes at most one suffix — the longest
one matching under the `len(token) ≥ len(suffix)+2` side condition. -/
theorem C5_extract_contract (q : String) :
    extract_keywords q = dedupFirst (emitAll q) ∧
    (extract_keywords q).Nodup ∧
    (extract_keywords q).Sublist (emitAll q) ∧
    (∀ x, x ∈ extract_keywords q ↔ x ∈ emitAll q) ∧
    (∀ t ∈ tokensOf q, (t.length < 2 ∨ t ∈ stopWords) → emitToken t = []) ∧
    (∀ t : List Char,
      stripLoop t sortedSuffixes = t ∨
        ∃ sfx ∈ sortedSuffixes, elig t sfx ∧
          stripLoop t sortedSuffixes = t.take (t.length - sfx.data.length) ∧
          ∀ s2 ∈ sortedSuffixes, sfx.length < s2.length → ¬ elig t s2) := by
  refine ⟨extract_keywords_eq q, ?_, ?_, ?_, ?_, ?_⟩
  · rw [extract_keywords_eq]; exact dedupFirst_nodup _
  · rw [extract_keywords_eq]; exact dedupFirst_sublist _
  · intro x; rw [extract_keywords_eq]; exact mem_dedupFirst
  · intro t _ h; rw [emitToken, if_pos h]
  · intro t; exact stripLoop_spec t sortedSuffixes sortedSuffixes_sorted

/-- Witness for C5: the token `"뭐"` (a stopword of length 1) emits no
keyword. -/
theorem C5_extract_contract_witness : emitToken "뭐" = [] :=
  (C5_extract_contract "뭐 비전").2.2.2.2.1 "뭐" (by decide) (Or.inr (by decide))

/-- C4 counterexample: contrary to the claimed scenario, `"태재"` is not
among the keywords extracted from `"태재대학교 비전이 뭐야?"` — the token
`"태재대학교"` is not suffix-stripped (its base is itself) and the map
expansion of that base emits only the English synonym tokens. -/
theorem C4_taejae_missing :
    "태재" ∉ extract_keywords "태재대학교 비전이 뭐야?" := by decide

/-- C4 amended: on the query `"태재대학교 비전이 뭐야?"` the extractor
yields exactly `["태재대학교", "Taejae", "TAEJAE", "taejae.ac.kr", "비전",
"비전이", "vision", "visions", "뭐야"]` — which includes `"태재대학교"`
and `"비전"` (but not the un-emitted substring `"태재"`) and contains no
stopword — and the expander appends the synonym strings
`"Taejae TAEJAE taejae.ac.kr"`, `"Taejae TAEJAE taejae"` and
`"vision visions"`. -/
theorem C4_scenario :
    extract_keywords "태재대학교 비전이 뭐야?" =
      ["태재대학교", "Taejae", "TAEJAE", "taejae.ac.kr", "비전", "비전이",
       "vision", "visions", "뭐야"] ∧
    "태재대학교" ∈ extract_keywords "태재대학교 비전이 뭐야?" ∧
    "비전" ∈ extract_keywords "태재대학교 비전이 뭐야?" ∧
    (extract_keywords "태재대학교 비전이 뭐야?").all
      (fun w => !stopWords.contains w) = true ∧
    expand_query "태재대학교 비전이 뭐야?" =
      "태재대학교 비전이 뭐야? Taejae TAEJAE taejae.ac.kr Taejae TAEJAE taejae vision visions" ∧
    substrB "Taejae TAEJAE taejae.ac.kr" (expand_query "태재대학교 비전이 뭐야?") = true ∧
    substrB "vision visions" (expand_query "태재대학교 비전이 뭐야?") = true := by
  refine ⟨by decide, by decide, by decide, by decide, by decide, by decide, by decide⟩

/-- C7 counterexample: re-running extraction on the joined keywords of
`"태재대학교"` is not a subset of the original keywords — the keyword
`"taejae.ac.kr"` is re-split at its dots into the new tokens `"taejae"`,
`"ac"`, `"kr"`. -/
theorem C7_not_idempotent :
    ¬ (∀ x ∈ extract_keywords (joinSp (extract_keywords "태재대학교")),
        x ∈ extract_keywords "태재대학교") := by decide

/-- C7 amended: re-extraction on the joined keyword list yields a subset
of the original keywords provided every token of the joined output
re-emits only keywords of the original set (which fails in general, e.g.
for keywords containing punctuation, but holds for queries such as
`"비전"`). -/
theorem C7_conditional_idempotence (q : String)
    (h : ∀ t ∈ tokensOf (joinSp (extract_keywords q)),
        ∀ x ∈ emitToken t, x ∈ extract_keywords q) :
    ∀ x ∈ extract_keywords (joinSp (extract_keywords q)), x ∈ extract_keywords q := by
  intro x hx
  rw [extract_keywords_eq] at hx
  have h2 := mem_dedupFirst.mp hx
  rw [emitAll] at h2
  obtain ⟨l, hl, hxl⟩ := List.mem_flatten.mp h2
  obtain ⟨t, ht, rfl⟩ := List.mem_map.mp hl
  exact h t ht x hxl

/-- Witness for the amended C7 at the query `"비전"`. -/
theorem C7_conditional_idempotence_witness :
    "vision" ∈ extract_keywords "비전" :=
  C7_conditional_idempotence "비전" (by decide) "vision" (by decide)

/-! ## Hybrid retrieval: lemmas and claims C1, C2, C3 -/

theorem insertRow_contents (r : Row) (l : List Row) :
    (insertRow r l).map Row.content =
      if r.content ∈ l.map Row.content then l.map Row.content
      else l.map Row.content ++ [r.content] := by
  induction l with
  | nil => simp [insertRow]
  | cons x xs ih =>
    rw [insertRow]
    by_cases hc : x.content = r.content
    · rw [if_pos hc]
      simp only [List.map_cons]
      rw [if_pos (List.mem_cons.mpr (Or.inl hc.symm))]
      by_cases hs : x.sim < r.sim
      · rw [if_pos hs]; simp [hc]
      · rw [if_neg hs]
    · rw [if_neg hc]
      simp only [List.map_cons, ih]
      have hne : ¬ r.content = x.content := fun h => hc h.symm
      by_cases hm : r.content ∈ xs.map Row.content
      · rw [if_pos hm, if_pos (List.mem_cons.mpr (Or.inr hm))]
      · rw [if_neg hm, if_neg (by simp [hne, hm]), List.cons_append]

theorem dedupByContent_nodup (l : List Row) :
    ((dedupByContent l).map Row.content).Nodup := by
  suffices h : ∀ acc : List Row, (acc.map Row.content).Nodup →
      ((l.foldl (fun acc r => insertRow r acc) acc).map Row.content).Nodup by
    exact h [] (by simp)
  induction l with
  | nil => intro acc hacc; simpa using hacc
  | cons r rs ih =>
    intro acc hacc
    rw [List.foldl_cons]
    apply ih
    rw [insertRow_contents]
    split
    · exact hacc
    · rename_i hno
      simp [List.nodup_append, hacc, hno]

theorem insertionSort_key_sorted (key : Row → ℚ) (l : List Row) :
    (List.insertionSort (fun a b => key b ≤ key a) l).Sorted
      (fun a b => key b ≤ key a) := by
  haveI : IsTotal Row (fun a b => key b ≤ key a) := ⟨fun a b => le_total (key b) (key a)⟩
  haveI : IsTrans Row (fun a b => key b ≤ key a) :=
    ⟨fun _ _ _ h1 h2 => le_trans h2 h1⟩
  exact List.sorted_insertionSort _ l

theorem sortByFinalDesc_sorted (kws : List String) (l : List Row) :
    (sortByFinalDesc kws l).Sorted
      (fun a b => finalScore kws b ≤ finalScore kws a) := by
  rw [sortByFinalDesc]
  exact insertionSort_key_sorted (finalScore kws) l

theorem sortBySimDesc_sorted (l : List Row) :
    (sortBySimDesc l).Sorted (fun a b => b.sim ≤ a.sim) := by
  rw [sortBySimDesc]
  exact insertionSort_key_sorted Row.sim l

/-- C3: the `try/except` of `search_similar_documents` converts any
store-level error during the retrieval query into an empty result list,
and an empty store yields an empty result list in both branches, without
raising. -/
theorem C3_search_fail_open :
    (∀ (e : String) (q : String) (k : Nat), searchWithStore (.error e) q k = []) ∧
    (∀ (q : String) (k : Nat), searchWithStore (.ok []) q k = []) := by
  constructor
  · intro e q k; rfl
  · intro q k
    rw [searchWithStore, searchModel]
    split
    · simp [sortBySimDesc, List.insertionSort]
    · simp [sortBySimDesc, sortByCountDesc, sortByFinalDesc, dedupByContent,
        List.insertionSort]

theorem searchModel_no_keywords (rows : List Row) (q : String) (k : Nat)
    (hk : extract_keywords q = []) :
    searchModel rows q k = (sortBySimDesc rows).take k := by
  simp only [searchModel, hk]
  rfl

theorem searchModel_keywords (rows : List Row) (q : String) (k : Nat)
    (hk : extract_keywords q ≠ []) :
    searchModel rows q k =
      (sortByFinalDesc (extract_keywords q)
        (dedupByContent ((sortBySimDesc rows).take 50 ++
          (sortByCountDesc (extract_keywords q)
            (rows.filter (matchesAny (extract_keywords q)))).take 50))).take k := by
  simp only [searchModel, hk]
  rfl

/-- C1 (amended): `search` always returns at most `k` documents ordered
descending by the fused relevance score; when the extracted keyword list
is non-empty (the hybrid branch, which deduplicates by content) no two
returned documents have equal content.  In the keyword-less pure-vector
branch the dedup clause does not apply (see the counterexample). -/
theorem C1_search_contract (res : Except String (List Row)) (q : String) (k : Nat) :
    (searchWithStore res q k).length ≤ k ∧
    (searchWithStore res q k).Sorted
      (fun a b => finalScore (extract_keywords q) b ≤ finalScore (extract_keywords q) a) ∧
    (extract_keywords q ≠ [] →
      ((searchWithStore res q k).map Row.content).Nodup) := by
  cases res with
  | error e =>
    exact ⟨by simp [searchWithStore], by simp [searchWithStore], fun _ => by
      simp [searchWithStore]⟩
  | ok rows =>
    have hsw : searchWithStore (.ok rows) q k = searchModel rows q k := rfl
    rw [hsw]
    by_cases hk : extract_keywords q = []
    · rw [searchModel_no_keywords rows q k hk]
      refine ⟨List.length_take_le k _, ?_, fun hne => absurd hk hne⟩
      have hs : ((sortBySimDesc rows).take k).Sorted (fun a b => b.sim ≤ a.sim) :=
        List.Pairwise.sublist (List.take_sublist k _) (sortBySimDesc_sorted rows)
      rw [hk]
      refine hs.imp ?_
      intro a b h
      simp only [finalScore, boost, List.map_nil, List.sum_nil, List.all_nil,
        if_pos rfl]
      linarith
    · rw [searchModel_keywords rows q k hk]
      refine ⟨List.length_take_le k _, ?_, fun _ => ?_⟩
      · exact List.Pairwise.sublist (List.take_sublist k _) (sortByFinalDesc_sorted _ _)
      · rw [List.map_take]
        apply (List.take_sublist k _).nodup
        have hperm := (List.perm_insertionSort
          (fun a b => finalScore (extract_keywords q) b ≤ finalScore (extract_keywords q) a)
          (dedupByContent ((sortBySimDesc rows).take 50 ++
            (sortByCountDesc (extract_keywords q)
              (rows.filter (matchesAny (extract_keywords q)))).take 50))).map Row.content
        exact hperm.nodup_iff.mpr (dedupByContent_nodup _)

/-- C1 counterexample: with an empty extracted keyword list (query `""`)
the pure-vector branch performs no content deduplication, so a store
holding two rows with equal content returns that content twice. -/
theorem C1_duplicate_contents :
    ¬ (((searchWithStore (.ok [⟨"dup", "f", "s", 1⟩, ⟨"dup", "f", "s", 0⟩]) "" 5).map
        Row.content).Nodup) := by decide

/-- Witness for C1 at a non-empty keyword list: the returned contents are
duplicate-free. -/
theorem C1_search_contract_witness :
    ((searchWithStore (.ok [⟨"비전", "f", "s", 1⟩]) "비전" 3).map Row.content).Nodup :=
  (C1_search_contract (.ok [⟨"비전", "f", "s", 1⟩]) "비전" 3).2.2 (by decide)

theorem sum_ite_count (c : ℚ) (p : String → Bool) (l : List String) :
    (l.map (fun kw => if p kw then c else 0)).sum = c * (l.countP p : ℚ) := by
  induction l with
  | nil => simp
  | cons x xs ih =>
    simp only [List.map_cons, List.sum_cons, ih, List.countP_cons]
    by_cases hx : p x = true
    · rw [if_pos hx, if_pos hx]
      push_cast
      ring
    · rw [if_neg hx, if_neg hx]
      push_cast
      ring

theorem boost_eq (kws : List String) (r : Row) :
    boost kws r = (3 / 100 : ℚ) * (matchCount kws r : ℚ)
      + (if kws.all (fun kw => rowMatches kw r) then (3 / 10 : ℚ) else 0) := by
  rw [boost, matchCount, sum_ite_count]

/-- C2 (amended): the boost is `0.03` per matching keyword plus `0.30`
when all keywords match; and for a keyword list of length `n ≥ 2`, a
document matching every keyword outscores an equal-similarity document
matching exactly one keyword by at least `0.30 + 0.03 * (n - 1)`.  For
`n = 1` the two documents coincide in boost (see the counterexample). -/
theorem C2_boost_monotonicity (kws : List String) (n : Nat) (hn : kws.length = n)
    (h2 : 2 ≤ n) (A B : Row) (hsim : A.sim = B.sim)
    (hA : ∀ kw ∈ kws, rowMatches kw A = true)
    (hB : matchCount kws B = 1) :
    (∀ r : Row, boost kws r = (3 / 100 : ℚ) * (matchCount kws r : ℚ)
      + (if kws.all (fun kw => rowMatches kw r) then (3 / 10 : ℚ) else 0)) ∧
    finalScore kws B + ((3 / 10 : ℚ) + (3 / 100 : ℚ) * ((n : ℚ) - 1))
      ≤ finalScore kws A := by
  refine ⟨fun r => boost_eq kws r, ?_⟩
  have hAc : matchCount kws A = n := by
    rw [matchCount, List.countP_eq_length.mpr hA, hn]
  have hAall : kws.all (fun kw => rowMatches kw A) = true :=
    List.all_eq_true.mpr hA
  have hBall : kws.all (fun kw => rowMatches kw B) = false := by
    by_contra hcon
    have htrue : kws.all (fun kw => rowMatches kw B) = true := by
      cases h : kws.all (fun kw => rowMatches kw B)
      · exact absurd h hcon
      · rfl
    have : matchCount kws B = n := by
      rw [matchCount, List.countP_eq_length.mpr (List.all_eq_true.mp htrue), hn]
    omega
  rw [finalScore, finalScore, boost_eq, boost_eq, hAc, hB, hAall, hBall,
    if_pos rfl, if_neg (by simp), hsim]
  apply le_of_eq
  push_cast
  ring

/-- C2 counterexample: with the single-keyword list `["비전"]` (`n = 1`),
a document matching the keyword matches "every" and "only one" keyword at
once, so the claimed strict gap of `0.30 + 0.03*(n-1)` fails. -/
theorem C2_single_keyword_gap_fails :
    rowMatches "비전" ⟨"비전", "", "", 0⟩ = true ∧
    matchCount ["비전"] ⟨"비전", "", "", 0⟩ = 1 ∧
    ¬ (finalScore ["비전"] ⟨"비전", "", "", 0⟩
        + ((3 / 10 : ℚ) + (3 / 100 : ℚ) * (((1 : Nat) : ℚ) - 1))
      ≤ finalScore ["비전"] ⟨"비전", "", "", 0⟩) := by
  refine ⟨by decide, by decide, ?_⟩
  intro h
  have he : ((3 : ℚ) / 10 + (3 / 100 : ℚ) * (((1 : Nat) : ℚ) - 1)) = 3 / 10 := by
    push_cast
    ring
  rw [he] at h
  linarith

/-- Witness for C2 with two keywords: the full-match document outscores
the single-match document of equal base similarity by `0.30 + 0.03`. -/
theorem C2_boost_monotonicity_witness :
    finalScore ["비전", "vision"] ⟨"비전", "", "", 0⟩
      + ((3 / 10 : ℚ) + (3 / 100 : ℚ) * (((2 : Nat) : ℚ) - 1))
    ≤ finalScore ["비전", "vision"] ⟨"비전 vision", "", "", 0⟩ :=
  (C2_boost_monotonicity ["비전", "vision"] 2 rfl (by decide)
    ⟨"비전 vision", "", "", 0⟩ ⟨"비전", "", "", 0⟩ rfl (by decide) (by decide)).2

/-! ## Embedding provider: lemmas and claim C8 -/

theorem retryGo_ne_none (f : Nat → Except EmbedErr Vec) :
    ∀ (m a : Nat), 1 ≤ m → (retryGo f a m).1 ≠ none := by
  intro m
  induction m with
  | zero => intro a h; omega
  | succ m' ih =>
    intro a _
    cases m' with
    | zero => cases hf : f a <;> simp [retryGo, hf]
    | succ m'' =>
      cases hf : f a with
      | ok v => simp [retryGo, hf]
      | error e =>
        have h1 := ih (a + 1) (by omega)
        simpa [retryGo, hf] using h1

theorem retryGo_error_last (f : Nat → Except EmbedErr Vec) :
    ∀ (m a : Nat) (e : EmbedErr),
      (retryGo f a m).1 = some (.error e) → f (a + m - 1) = .error e := by
  intro m
  induction m with
  | zero => intro a e h; simp [retryGo] at h
  | succ m' ih =>
    intro a e h
    cases m' with
    | zero =>
      cases hf : f a with
      | ok v => rw [retryGo, hf] at h; cases h
      | error e' =>
        rw [retryGo, hf] at h
        injection h with h1
        injection h1 with h2
        simpa [h2] using hf
    | succ m'' =>
      cases hf : f a with
      | ok v => rw [retryGo, hf] at h; cases h
      | error e' =>
        rw [retryGo, hf] at h
        have h2 : (retryGo f (a + 1) (m'' + 1)).1 = some (.error e) := h
        have h3 := ih (a + 1) e h2
        have harg : a + 1 + (m'' + 1) - 1 = a + (m'' + 1 + 1) - 1 := by omega
        rwa [harg] at h3

theorem retryGo_delays (f : Nat → Except EmbedErr Vec)
    (hf : ∀ j, ∃ e, f j = .error e) :
    ∀ (m a : Nat), (retryGo f a m).2 =
      (List.range (m - 1)).map (fun i => ((a + i : Nat) : ℚ) + 1) := by
  intro m
  induction m with
  | zero => intro a; simp [retryGo]
  | succ m' ih =>
    intro a
    cases m' with
    | zero =>
      obtain ⟨e, he⟩ := hf a
      simp [retryGo, he]
    | succ m'' =>
      obtain ⟨e, he⟩ := hf a
      have hstep : (retryGo f a (m'' + 1 + 1)).2 =
          ((a : ℚ) + 1) :: (retryGo f (a + 1) (m'' + 1)).2 := by
        rw [retryGo, he]
      rw [hstep, ih (a + 1)]
      simp only [Nat.add_sub_cancel, List.range_succ_eq_map, List.map_cons,
        List.map_map]
      refine List.cons_eq_cons.mpr ⟨by push_cast; ring, ?_⟩
      apply List.map_congr_left
      intro i _
      simp only [Function.comp]
      push_cast
      ring

/-- C8: for every oracle of remote outcomes and retry bound ≥ 1,
`embed_texts` either succeeds with exactly one vector per input text (in
order, each text's vector the first successful attempt of its own retry
loop) or raises the error of the last attempt of the first failing text —
never partial results; and a fully failing text sleeps the linearly
increasing back-off delays `1·base, 2·base, ..., (m-1)·base`. -/
theorem C8_embed_texts_contract (oracle : String → Nat → Except EmbedErr Vec)
    (texts : List String) (m : Nat) (hm : 1 ≤ m) :
    ((∃ vs, embed_texts oracle texts m = .ok vs ∧ vs.length = texts.length ∧
        ∀ (i : Nat) (hi : i < texts.length) (hv : i < vs.length),
          (retryGo (oracle (texts.get ⟨i, hi⟩)) 0 m).1 =
            some (.ok (vs.get ⟨i, hv⟩))) ∨
      (∃ e, embed_texts oracle texts m = .error e ∧
        ∃ t ∈ texts, (retryGo (oracle t) 0 m).1 = some (.error e) ∧
          oracle t (m - 1) = .error e)) ∧
    (∀ t, (∀ j, ∃ er, oracle t j = .error er) →
      (retryGo (oracle t) 0 m).2 =
        (List.range (m - 1)).map (fun i => ((i : Nat) : ℚ) + 1)) := by
  constructor
  · induction texts with
    | nil => exact Or.inl ⟨[], rfl, rfl, fun i hi _ => absurd hi (Nat.not_lt_zero i)⟩
    | cons t ts ih =>
      rcases hr : (retryGo (oracle t) 0 m).1 with _ | r
      · exact absurd hr (retryGo_ne_none (oracle t) m 0 hm)
      · rcases r with e | v
        · refine Or.inr ⟨e, by rw [embed_texts, hr], t, List.mem_cons_self t ts,
            hr, ?_⟩
          have h := retryGo_error_last (oracle t) m 0 e hr
          rwa [show 0 + m - 1 = m - 1 by omega] at h
        · rcases ih with ⟨vs, hok, hlen, hidx⟩ | ⟨e, herr, t2, ht2, h1, h2⟩
          · refine Or.inl ⟨v :: vs, by rw [embed_texts, hr, hok],
              by simp [hlen], ?_⟩
            intro i hi hv
            cases i with
            | zero => exact hr
            | succ j =>
              exact hidx j (Nat.lt_of_succ_lt_succ hi) (Nat.lt_of_succ_lt_succ hv)
          · exact Or.inr ⟨e, by rw [embed_texts, hr, herr], t2,
              List.mem_cons_of_mem t ht2, h1, h2⟩
  · intro t ht
    have h := retryGo_delays (oracle t) ht m 0
    rw [h]
    apply List.map_congr_left
    intro i _
    simp

/-- Witness for C8 with an always-succeeding oracle and retry bound 5:
the batch succeeds with one vector per input, each text's vector coming
from that text's own retry loop, or fails with the last attempt's
error. -/
theorem C8_embed_texts_contract_witness :
    (∃ vs, embed_texts (fun _ _ => Except.ok [(1 : ℚ)]) ["a"] 5 = Except.ok vs ∧
      vs.length = (["a"] : List String).length ∧
      ∀ (i : Nat) (hi : i < (["a"] : List String).length) (hv : i < vs.length),
        (retryGo ((fun (_ : String) (_ : Nat) => Except.ok [(1 : ℚ)])
            ((["a"] : List String).get ⟨i, hi⟩)) 0 5).1 =
          some (.ok (vs.get ⟨i, hv⟩))) ∨
    (∃ e, embed_texts (fun _ _ => Except.ok [(1 : ℚ)]) ["a"] 5 = Except.error e ∧
      ∃ t ∈ (["a"] : List String),
        (retryGo ((fun (_ : String) (_ : Nat) => Except.ok [(1 : ℚ)]) t) 0 5).1 =
            some (.error e) ∧
          (fun (_ : String) (_ : Nat) => Except.ok [(1 : ℚ)]) t (5 - 1) =
            Except.error e) :=
  (C8_embed_texts_contract (fun _ _ => Except.ok [(1 : ℚ)]) ["a"] 5 (by decide)).1

/-! ## Context formatting: claim C9 -/

/-- C9 (code-bug evidence): file ingestion tags documents `type = "file"`
(and the migration collapses the legacy tags to `"file"`), but
`format_docs` attaches the page/slide/sheet locator only for the legacy
tags `"pdf"`, `"pptx"`, `"xlsx"`.  So a PDF-ingested document with a
`page` in its metadata is formatted without its locator: the label is
`"[Source 1: a.pdf]"` with no `", Page 1"`, and `"Page"` does not occur
in the output at all. -/
theorem C9_file_type_drops_locator :
    load_pdf "a.pdf" ["hello"] =
      .ok [⟨"hello", ⟨none, some "a.pdf", some "file", some 1, none, none⟩⟩] ∧
    format_docs [⟨"hello", ⟨none, some "a.pdf", some "file", some 1, none, none⟩⟩] =
      "[Source 1: a.pdf]\nhello" ∧
    substrB "Page" "[Source 1: a.pdf]\nhello" = false ∧
    extraInfo ⟨none, some "a.pdf", some "file", some 7, none, none⟩ = "" ∧
    extraInfo ⟨none, some "a.pdf", some "pdf", some 7, none, none⟩ = ", Page 7" :=
  ⟨rfl, by decide, by decide, rfl, rfl⟩
